import Mathlib

/-! Verification of the GOSPA/OSPA metric core of Stone-Soup.

This development embeds the multi-object tracking metric core (GOSPA and
OSPA metrics, the assignment solver and the identity-switching loss
tracker) together with the timestamp check of the multi-frame-assignment
hypothesiser, and proves the specified properties about the embedding.

The repository's `stonesoup/metricgenerator/ospametric.py` module itself is
not present in the sources (only its test-suite is), so those components
are modelled from the specification; each such definition carries a doc
comment starting with `Modelled from the spec:`.  The models are validated
against the concrete numeric expectations of the repository's test file
`stonesoup/metricgenerator/tests/test_ospametric.py`.

Floating-point numbers of the Python code are modelled as exact rationals;
the final `x ** (1/p)` roots (which land outside ℚ) are expressed at the
statement level via `Real.rpow` applied to the rational cores.
-/

namespace StoneSoup

/-! ## Switching loss tracker

Modelled from the spec, §4.5 `SwitchingLossTracker` (`_SwitchingLoss` in
the missing `ospametric.py`; behaviour cross-checked against
`test_switching_loss`). -/

/-- Modelled from the spec: per-truth-identity record
`{last_known_id : track-identity-or-None, established : Bool}` (§3
`TruthHistory`).  Track identities are modelled as naturals. -/
structure TruthHistory where
  last_id : Option ℕ
  established : Bool
deriving DecidableEq, Repr

/-- Modelled from the spec: the mutable state of `_SwitchingLoss`:
per-truth histories (an association list keyed by stable truth identity),
configuration `loss_factor` and `p`, and the weight sum of the most recent
`add_associations` call (`none` before the first call). -/
structure SLState where
  loss_factor : ℚ
  p : ℕ
  histories : List (ℕ × TruthHistory)
  last_weight_sum : Option ℚ
deriving DecidableEq, Repr

/-- Modelled from the spec: a freshly constructed `_SwitchingLoss`
 tracker: empty history, no associations recorded yet. -/
def initSL (lf : ℚ) (p : ℕ) : SLState :=
  { loss_factor := lf, p := p, histories := [], last_weight_sum := none }

/-- Look up the history of a truth identity in the association list. -/
def lookupHist (hs : List (ℕ × TruthHistory)) (tid : ℕ) : Option TruthHistory :=
  (hs.find? (fun pr => pr.1 = tid)).map (·.2)

/-- Replace the entry for `tid` (or append it if absent). -/
def updateHist (hs : List (ℕ × TruthHistory)) (tid : ℕ) (h : TruthHistory) :
    List (ℕ × TruthHistory) :=
  match hs with
  | [] => [(tid, h)]
  | (k, v) :: rest =>
    if k = tid then (tid, h) :: rest else (k, v) :: updateHist rest tid h

/-- Modelled from the spec: the weight contributed by one truth identity
in an `add_associations` call, given its prior history (`none` = first
observation ever) and the newly assigned track identity (`none` = no
track).  First observation and still-establishing observations cost `0`;
once established: unchanged costs `0`, real-to-real change costs `1`, a
real/None transition (either direction) costs `1/2` (§4.5). -/
def stepWeight (old : Option TruthHistory) (v : Option ℕ) : ℚ :=
  match old with
  | none => 0
  | some hist =>
    if hist.established = false then 0
    else if hist.last_id = v then 0
    else if hist.last_id.isSome && v.isSome then 1
    else 1/2

/-- Modelled from the spec: the updated history of one truth identity:
`last_known_id` becomes the new value, `established` becomes true once a
non-None track identity has ever been recorded (§3, §4.5). -/
def stepHist (old : Option TruthHistory) (v : Option ℕ) : TruthHistory :=
  match old with
  | none => { last_id := v, established := v.isSome }
  | some hist => { last_id := v, established := hist.established || v.isSome }

/-- Modelled from the spec: `_SwitchingLoss.add_associations`.  Processes
each truth identity present in the assignment (absent identities are
skipped and their history left untouched), accumulating the weight sum,
which is also recorded as the last computed weight sum.  Returns the
updated tracker state and this call's weight sum (§4.5). -/
def addAssociations (s : SLState) (asg : List (ℕ × Option ℕ)) : SLState × ℚ :=
  let res := asg.foldl
    (fun (acc : List (ℕ × TruthHistory) × ℚ) pr =>
      let old := lookupHist acc.1 pr.1
      (updateHist acc.1 pr.1 (stepHist old pr.2), acc.2 + stepWeight old pr.2))
    (s.histories, 0)
  ({ s with histories := res.1, last_weight_sum := some res.2 }, res.2)

/-- Modelled from the spec: `_SwitchingLoss.loss`.  The Python method
returns the real number `loss_factor * weight_sum ** (1/p)` and raises a
`RuntimeError` when `add_associations` has never been called; to stay
rational-valued the model returns the `p`-th power
`loss_factor ^ p * weight_sum` of that value (the two determine each other
for nonnegative arguments, see `loss_pow_root`), and the error case is an
`Except.error`. -/
def loss_pow (s : SLState) : Except String ℚ :=
  match s.last_weight_sum with
  | none => Except.error "Cannot compute loss when no associations have been added"
  | some w => Except.ok (s.loss_factor ^ s.p * w)

/-- Run a sequence of `add_associations` calls from a starting state,
collecting each call's weight sum. -/
def runWeights (s : SLState) : List (List (ℕ × Option ℕ)) → List ℚ
  | [] => []
  | a :: rest =>
    let r := addAssociations s a
    r.2 :: runWeights r.1 rest

/-- The concrete association sequence of the spec's derivation scenario
(also the first parameter set of `test_switching_loss`). -/
def switchScenario : List (List (ℕ × Option ℕ)) :=
  [ [(0, some 0), (1, some 1), (2, some 2)]
  , [(0, some 0), (1, some 1), (2, some 2)]
  , [(0, some 0), (1, some 1), (2, none)]
  , [(0, some 0), (1, some 1), (2, some 2)]
  , [(0, some 1), (1, some 0), (2, some 2)]
  , [(1, some 0), (0, some 1), (2, some 2)]
  , [(0, none), (1, some 2), (2, some 0)] ]

/-! ## Cost matrices and the assignment solver

Modelled from the spec, §4.1 `CostMatrixBuilder` and §4.2
`AssignmentSolver` (the `compute_cost_matrix` / `compute_assignments`
methods of the missing `ospametric.py`). -/

/-- Modelled from the spec: the Euclidean distance between two state
vectors, specialised to one-dimensional rational-valued states (as used
throughout the repository's metric tests) so that the development stays
computable; in one dimension the Euclidean distance is `|a - b|`. -/
def dist1 (a b : ℚ) : ℚ := |a - b|

/-- Modelled from the spec: `compute_cost_matrix` without padding —
entry `[i, j]` is the distance between `setA[i]` and `setB[j]` (§4.1). -/
def costMatrix (setA setB : List ℚ) : List (List ℚ) :=
  setA.map fun a => setB.map fun b => dist1 a b

/-- Cap every entry of a cost matrix at `c` (`min(dist, c)`). -/
def cappedMatrix (M : List (List ℚ)) (c : ℚ) : List (List ℚ) :=
  M.map (·.map (fun x => min x c))

/-- Raise every entry of a cost matrix to the `p`-th power. -/
def powMatrix (M : List (List ℚ)) (p : ℕ) : List (List ℚ) :=
  M.map (·.map (· ^ p))

/-- The `[i, j]` entry of a matrix (0 outside the matrix). -/
def entry (M : List (List ℚ)) (i j : ℕ) : ℚ := (M.getD i []).getD j 0

/-- The number of columns of a (well-formed) matrix. -/
def colCount (M : List (List ℚ)) : ℕ := (M.headD []).length

/-- Explicit transpose with a stated column count: row `j` of the result
collects the `j`-th entry of every row of `M`. -/
def transposeM (M : List (List ℚ)) (s : ℕ) : List (List ℚ) :=
  (List.range s).map fun j => M.map fun row => row.getD j 0

/-- The matched pairs `(i, σ i)` described by an assignment vector `σ`
(row `i` is matched to column `σ i`). -/
def pairsOf (σ : List ℕ) : List (ℕ × ℕ) :=
  (List.range σ.length).map fun i => (i, σ.getD i 0)

/-- The total cost of a list of matched `(row, column)` pairs. -/
def matchCost (M : List (List ℚ)) (q : List (ℕ × ℕ)) : ℚ :=
  (q.map fun ij => entry M ij.1 ij.2).sum

/-- The total cost of an assignment vector. -/
def candCost (M : List (List ℚ)) (σ : List ℕ) : ℚ := matchCost M (pairsOf σ)

/-- All assignment vectors matching each of `r` rows to a distinct one of
`s` columns (`r ≤ s`), enumerated deterministically. -/
def candidates (r s : ℕ) : List (List ℕ) :=
  (List.range s).permutations.map (·.take r)

/-- Running-minimum kernel of `pickMin`: the first element of `x :: l`
minimising `f`. -/
def pickMin1 (f : α → ℚ) (x : α) : List α → α
  | [] => x
  | y :: ys => if f y < f x then pickMin1 f y ys else pickMin1 f x ys

/-- The first element of a list minimising `f` (deterministic tie-break,
as the spec requires of the solver). -/
def pickMin (f : α → ℚ) : List α → Option α
  | [] => none
  | x :: xs => some (pickMin1 f x xs)

/-- Modelled from the spec: the core of the assignment solver — the
minimum-cost full matching of the `r` rows into the `s` columns
(`r ≤ s`), chosen deterministically among ties (§4.2). -/
def solveLE (M : List (List ℚ)) (r s : ℕ) : List ℕ :=
  (pickMin (candCost M) (candidates r s)).getD []

/-- The matched `(row, column)` pairs of the minimum-cost assignment of a
(possibly rectangular) matrix: the smaller side is fully matched; when
there are more rows than columns the problem is solved on the transpose. -/
def assignPairs (M : List (List ℚ)) : List (ℕ × ℕ) :=
  let r := M.length
  let s := colCount M
  if r ≤ s then pairsOf (solveLE M r s)
  else (pairsOf (solveLE (transposeM M s) s r)).map Prod.swap

/-- Modelled from the spec: `AssignmentResult` — for each row and column
the index of its matched counterpart or the sentinel `-1`, plus the total
matched cost (§3, §4.2). -/
structure AssignmentResult where
  a_to_b : List ℤ
  b_to_a : List ℤ
  opt_cost : ℚ
deriving DecidableEq, Repr

/-- The inverse mapping induced by an assignment vector: column `j` is
sent to the row matched with it, or to `-1` when unmatched. -/
def invOf (σ : List ℕ) (s : ℕ) : List ℤ :=
  (List.range s).map fun j =>
    match σ.findIdx? (· = j) with
    | some i => (i : ℤ)
    | none => -1

/-- Modelled from the spec: `compute_assignments` — solve the rectangular
minimum-cost bipartite assignment, returning the row-to-column and
column-to-row index arrays (`-1` = unmatched) and the optimal cost
(§4.2). -/
def compute_assignments (M : List (List ℚ)) : AssignmentResult :=
  let r := M.length
  let s := colCount M
  if r ≤ s then
    let σ := solveLE M r s
    ⟨σ.map (fun x : ℕ => (x : ℤ)), invOf σ s, candCost M σ⟩
  else
    let Mt := transposeM M s
    let σ := solveLE Mt s r
    ⟨invOf σ r, σ.map (fun x : ℕ => (x : ℤ)), candCost Mt σ⟩

/-! ## OSPA

Modelled from the spec, §4.4 `OSPACalculator` (`OSPAMetric` in the missing
`ospametric.py`; validated against `test_ospametric_computemetric` and
`test_ospa_computemetric_cardinality_error`). -/

/-- Modelled from the spec: the cost matrix used by OSPA — pairwise
distances capped at `c` (§4.4). -/
def ospaMatrix (tracks truths : List ℚ) (c : ℚ) : List (List ℚ) :=
  cappedMatrix (costMatrix tracks truths) c

/-- Modelled from the spec: the OSPA distance for finite order `p`,
represented by its `p`-th power (which is rational): if
`n = max(|tracks|, |truths|) = 0` the distance is `0`; otherwise the
capped cost matrix is built, the minimum-cost assignment fully matches the
smaller side, and
`distance ^ p = (sum_matched min(dist, c)^p + (n - m) c^p) / n` (§4.4). -/
def ospaDistPow (tracks truths : List ℚ) (c : ℚ) (p : ℕ) : ℚ :=
  if max tracks.length truths.length = 0 then 0
  else
    ((((assignPairs (ospaMatrix tracks truths c)).map
        (fun ij => (entry (ospaMatrix tracks truths c) ij.1 ij.2) ^ p)).sum)
      + ((max tracks.length truths.length : ℚ)
          - (min tracks.length truths.length : ℕ)) * c ^ p)
    / (max tracks.length truths.length : ℚ)

/-- Modelled from the spec: the OSPA distance at `p = ∞`:
`max(max_matched min(dist, c), c if n ≠ m else 0)`, and `0` when both sets
are empty (§4.4). -/
def ospaDistInf (tracks truths : List ℚ) (c : ℚ) : ℚ :=
  if max tracks.length truths.length = 0 then 0
  else
    max (((assignPairs (ospaMatrix tracks truths c)).map
        (fun ij => entry (cappedMatrix (costMatrix tracks truths) c) ij.1 ij.2)).foldr max 0)
      (if tracks.length = truths.length then 0 else c)

/-- A full matching of the smaller of `r` rows and `s` columns: exactly
`min r s` pairs, no row or column used twice, all indices in range. -/
def IsMatching (r s : ℕ) (q : List (ℕ × ℕ)) : Prop :=
  q.length = min r s ∧ (q.map Prod.fst).Nodup ∧ (q.map Prod.snd).Nodup
    ∧ ∀ ij ∈ q, ij.1 < r ∧ ij.2 < s

/-- The column matched with row `i` in a list of matched pairs. -/
def partnerIn (q : List (ℕ × ℕ)) (i : ℕ) : ℕ :=
  ((q.find? (fun pr => pr.1 = i)).map Prod.snd).getD 0

/-! ## GOSPA

Modelled from the spec, §4.3 `GOSPADecomposer` (`GOSPAMetric` in the
missing `ospametric.py`; validated against
`test_switching_gospametric_computemetric` and the degenerate-case
tests). -/

/-- The raw (uncapped) distance between track `i` and truth `j`. -/
def rawDist (tracks truths : List ℚ) (i j : ℕ) : ℚ :=
  dist1 (tracks.getD i 0) (truths.getD j 0)

/-- Modelled from the spec: the assignment matrix used by GOSPA — capped,
`p`-th-power costs (§4.3 step 2). -/
def gospaMatrix (tracks truths : List ℚ) (c : ℚ) (p : ℕ) : List (List ℚ) :=
  powMatrix (cappedMatrix (costMatrix tracks truths) c) p

/-- Modelled from the spec: the matched pairs kept by GOSPA — pairs of the
optimal assignment whose raw distance is strictly below the cutoff `c`;
pairs at or above `c` are discarded and their objects counted as
unmatched (§4.3 step 2). -/
def gospaKept (tracks truths : List ℚ) (c : ℚ) (p : ℕ) : List (ℕ × ℕ) :=
  (assignPairs (gospaMatrix tracks truths c p)).filter
    (fun ij => rawDist tracks truths ij.1 ij.2 < c)

/-- Modelled from the spec: the truth-to-track assignment handed to the
switching-loss tracker: every truth present this timestep is keyed, with
the matched track identity or `None` (§4.3 step 5). -/
def gospaAssignMap (numTruths : ℕ) (kept : List (ℕ × ℕ)) :
    List (ℕ × Option ℕ) :=
  (List.range numTruths).map fun j =>
    (j, (kept.find? (fun pr => pr.2 = j)).map (·.1))

/-- Modelled from the spec: `GOSPAMetricValue` — the per-timestep metric
dictionary.  The Python values `distance`, `switching` are real-valued
roots; the model stores their (rational) `p`-th powers `distance_pow` and
`switching_pow`, together with the already-scaled cardinality penalties
`missed` and `falseC` (= `false` in Python) and the raw unmatched counts
(§3, §4.3). -/
structure GospaValue where
  distance_pow : ℚ
  localisation_pow : ℚ
  missed : ℚ
  falseC : ℚ
  switching_pow : ℚ
  num_missed : ℕ
  num_false : ℕ
deriving DecidableEq, Repr

/-- Modelled from the spec: one timestep of the GOSPA computation (§4.3):
solve the assignment over capped `p`-th-power costs, discard matches at or
above the cutoff, set `dummy_cost = c^p / alpha`,
`localisation^p = sum of dist^p` over kept pairs,
`missed/false = unmatched count * dummy_cost`, feed the truth-to-track
map to the switching tracker when `switching_penalty` is configured
(`switching^p = penalty^p * weight_sum`), and
`distance^p = localisation^p + missed + false + switching^p`. -/
def gospaStep (c : ℚ) (p : ℕ) (alpha : ℚ) (sp : Option ℚ)
    (tracks truths : List ℚ) (sl : SLState) : GospaValue × SLState :=
  let kept := gospaKept tracks truths c p
  let locPow := (kept.map fun ij => (rawDist tracks truths ij.1 ij.2) ^ p).sum
  let nMissed := truths.length - kept.length
  let nFalse := tracks.length - kept.length
  let dummy := c ^ p / alpha
  match sp with
  | none =>
    ({ distance_pow := locPow + nMissed * dummy + nFalse * dummy
     , localisation_pow := locPow
     , missed := nMissed * dummy
     , falseC := nFalse * dummy
     , switching_pow := 0
     , num_missed := nMissed, num_false := nFalse }, sl)
  | some penalty =>
    let res := addAssociations sl (gospaAssignMap truths.length kept)
    let swPow := penalty ^ p * res.2
    ({ distance_pow := locPow + nMissed * dummy + nFalse * dummy + swPow
     , localisation_pow := locPow
     , missed := nMissed * dummy
     , falseC := nFalse * dummy
     , switching_pow := swPow
     , num_missed := nMissed, num_false := nFalse }, res.1)

/-! ## Metric time-series driver

Modelled from the spec, §4.6 `MetricTimeSeriesDriver` (the
`compute_metric` glue of the missing `ospametric.py`; validated against
`test_gospametric_single_timestep` and `test_gospametric_computemetric`). -/

/-- Modelled from the spec: the per-run output of the metric driver —
either the bare single structured metric value carrying its own timestamp
(when the run has exactly one timestep), or a titled time-range value
holding the time-ordered sequence with its start and end timestamps
(§4.6).  Timestamps are modelled as naturals. -/
inductive MetricOutput (α : Type) where
  | single (value : α) (timestamp : ℕ)
  | ranged (title : String) (values : List (α × ℕ)) (startT endT : ℕ)
deriving DecidableEq, Repr

/-- Modelled from the spec: the metric driver: iterate the distinct
timestamps of the run in time order, compute the per-timestep metric, and
return the bare single value for a single-timestep run, or the ordered
sequence wrapped with a title and the start/end time range otherwise
(`none` when the run has no timesteps at all) (§4.6). -/
def metricDriver {α : Type} (title : String) (timestamps : List ℕ)
    (compute : ℕ → α) : Option (MetricOutput α) :=
  match timestamps.dedup.insertionSort (· ≤ ·) with
  | [] => none
  | [t] => some (.single (compute t) t)
  | t :: rest =>
    some (.ranged title ((t :: rest).map fun u => (compute u, u)) t
      (rest.getLastD t))

/-! ## MFA hypothesiser timestamp check

Embedded from `src/stonesoup/hypothesiser/mfa.py`
(`MFAHypothesiser.hypothesise`). -/

/-- From `mfa.py`: the data of a detection that `hypothesise` relies on —
its timestamp (for the same-timestamp check) and an opaque payload
identity (used for indexing into `detections_tuple`). -/
structure MFADetection where
  timestamp : ℕ
  payload : ℕ
deriving DecidableEq, Repr

/-- From `mfa.py`: a mixture component of the track's current state: its
multi-frame assignment `tag` and its `weight`. -/
structure MFAComponent where
  tag : List ℕ
  weight : ℚ
deriving DecidableEq, Repr

/-- From `mfa.py`: a single hypothesis as produced by the underlying
hypothesiser and updated by `hypothesise`: the paired measurement
(`none` = missed detection, the falsy hypothesis), its weight, and the
prediction's tag. -/
structure MFAHyp where
  measurement : Option MFADetection
  weight : ℚ
  tag : List ℕ
deriving DecidableEq, Repr

/-- From `mfa.py`: the per-hypothesis update inside the loop of
`hypothesise`: `det_idx` is `detections_tuple.index(measurement) + 1` for
a truthy hypothesis (a `ValueError` — modelled as `Except.error` — if the
measurement is not in the tuple) and `0` for the missed-detection
hypothesis; the new weight is `component.weight * hypothesis.weight /
component_weight_sum` and the new tag is `[*component.tag, det_idx]`. -/
def mfaUpdateHyp (wsum : ℚ) (detections_tuple : List MFADetection)
    (comp : MFAComponent) (h : MFAHyp) : Except String MFAHyp :=
  match h.measurement with
  | none => Except.ok
      { h with weight := comp.weight * h.weight / wsum, tag := comp.tag ++ [0] }
  | some m =>
    match detections_tuple.findIdx? (fun d => d = m) with
    | none => Except.error "ValueError: measurement is not in detections_tuple"
    | some idx => Except.ok
        { h with
            weight := comp.weight * h.weight / wsum,
            tag := comp.tag ++ [idx + 1] }

/-- Error-propagating map, mirroring how an exception inside the loops of
`hypothesise` aborts the whole call. -/
def exMapM {β γ : Type} (f : β → Except String γ) :
    List β → Except String (List γ)
  | [] => Except.ok []
  | x :: xs =>
    match f x with
    | Except.error e => Except.error e
    | Except.ok y =>
      match exMapM f xs with
      | Except.error e => Except.error e
      | Except.ok ys => Except.ok (y :: ys)

/-- From `mfa.py`: `MFAHypothesiser.hypothesise`.  Collects the distinct
timestamps of the detections and records a (non-fatal) warning flag when
there is more than one; then, with the batch exactly as given, delegates
each component to the underlying hypothesiser and updates each returned
hypothesis's weight and tag.  Returns the warning flag together with the
flat hypothesis list. -/
def mfaHypothesise
    (underlying : MFAComponent → List MFADetection → List MFAHyp)
    (components : List MFAComponent)
    (detections : List MFADetection)
    (detections_tuple : List MFADetection) :
    Except String (Bool × List MFAHyp) :=
  let warned := decide (1 < (detections.map (·.timestamp)).dedup.length)
  let wsum := (components.map (·.weight)).sum
  match exMapM (fun comp =>
      exMapM (mfaUpdateHyp wsum detections_tuple comp)
        (underlying comp detections)) components with
  | Except.error e => Except.error e
  | Except.ok hypss => Except.ok (warned, hypss.flatten)

/-! Theorems. -/

theorem lookupHist_updateHist_ne (hs : List (ℕ × TruthHistory)) (k tid : ℕ)
    (h : TruthHistory) (hne : k ≠ tid) :
    lookupHist (updateHist hs k h) tid = lookupHist hs tid := by
  induction hs with
  | nil => simp [updateHist, lookupHist, List.find?, hne]
  | cons pr rest ih =>
    obtain ⟨k', v'⟩ := pr
    by_cases hk : k' = k
    · subst hk
      simp only [updateHist, if_pos rfl]
      simp [lookupHist, List.find?, hne, decide_eq_true_eq]
    · simp only [updateHist, if_neg hk]
      by_cases ht : k' = tid
      · subst ht
        simp [lookupHist, List.find?]
      · simp only [lookupHist, List.find?] at ih ⊢
        have : (decide (k' = tid)) = false := by simp [ht]
        simp only [this, cond_false]
        exact ih

theorem addAssoc_foldl_untouched (asg : List (ℕ × Option ℕ))
    (hs : List (ℕ × TruthHistory)) (w : ℚ) (tid : ℕ)
    (habs : ∀ pr ∈ asg, pr.1 ≠ tid) :
    lookupHist (asg.foldl
      (fun (acc : List (ℕ × TruthHistory) × ℚ) pr =>
        let old := lookupHist acc.1 pr.1
        (updateHist acc.1 pr.1 (stepHist old pr.2), acc.2 + stepWeight old pr.2))
      (hs, w)).1 tid = lookupHist hs tid := by
  induction asg generalizing hs w with
  | nil => rfl
  | cons pr rest ih =>
    have h1 : pr.1 ≠ tid := habs pr (List.mem_cons_self _ _)
    have h2 : ∀ q ∈ rest, q.1 ≠ tid := fun q hq => habs q (List.mem_cons_of_mem _ hq)
    simp only [List.foldl_cons]
    rw [ih _ _ h2, lookupHist_updateHist_ne _ _ _ _ h1]

/-! ### Properties of the solver -/

theorem pickMin1_mem {α : Type} {f : α → ℚ} :
    ∀ (l : List α) (x : α), pickMin1 f x l ∈ x :: l := by
  intro l
  induction l with
  | nil => intro x; simp [pickMin1]
  | cons y ys ih =>
    intro x
    simp only [pickMin1]
    by_cases hlt : f y < f x
    · rw [if_pos hlt]
      exact List.mem_cons_of_mem _ (ih y)
    · rw [if_neg hlt]
      rcases List.mem_cons.1 (ih x) with h | h
      · rw [h]; exact List.mem_cons_self _ _
      · exact List.mem_cons_of_mem _ (List.mem_cons_of_mem _ h)

theorem pickMin1_le {α : Type} {f : α → ℚ} :
    ∀ (l : List α) (x : α), ∀ y ∈ x :: l, f (pickMin1 f x l) ≤ f y := by
  intro l
  induction l with
  | nil =>
    intro x y hy
    rcases List.mem_cons.1 hy with h | h
    · exact h ▸ le_rfl
    · simp at h
  | cons z zs ih =>
    intro x y hy
    simp only [pickMin1]
    by_cases hlt : f z < f x
    · rw [if_pos hlt]
      rcases List.mem_cons.1 hy with h | h
      · exact h ▸ le_trans (ih z z (List.mem_cons_self _ _)) (le_of_lt hlt)
      · rcases List.mem_cons.1 h with h' | h'
        · exact h' ▸ ih z z (List.mem_cons_self _ _)
        · exact ih z y (List.mem_cons_of_mem _ h')
    · rw [if_neg hlt]
      rcases List.mem_cons.1 hy with h | h
      · exact h ▸ ih x x (List.mem_cons_self _ _)
      · rcases List.mem_cons.1 h with h' | h'
        · exact h' ▸ le_trans (ih x x (List.mem_cons_self _ _)) (le_of_not_lt hlt)
        · exact ih x y (List.mem_cons_of_mem _ h')

theorem pickMin_mem {α : Type} {f : α → ℚ} {l : List α} {x : α}
    (h : pickMin f l = some x) : x ∈ l := by
  cases l with
  | nil => simp [pickMin] at h
  | cons a t =>
    simp only [pickMin, Option.some.injEq] at h
    exact h ▸ pickMin1_mem t a

theorem pickMin_le {α : Type} {f : α → ℚ} {l : List α} {x : α}
    (h : pickMin f l = some x) : ∀ y ∈ l, f x ≤ f y := by
  cases l with
  | nil => simp [pickMin] at h
  | cons a t =>
    simp only [pickMin, Option.some.injEq] at h
    exact fun y hy => h ▸ pickMin1_le t a y hy

theorem pickMin_isSome {α : Type} {f : α → ℚ} {l : List α} (h : l ≠ []) :
    (pickMin f l).isSome := by
  cases l with
  | nil => exact absurd rfl h
  | cons a t => rfl

theorem candidates_ne_nil (r s : ℕ) : candidates r s ≠ [] := by
  have : List.range s ∈ (List.range s).permutations := List.mem_permutations.2 (List.Perm.refl _)
  intro h
  have : (List.range s).take r ∈ candidates r s := List.mem_map_of_mem _ this
  rw [h] at this
  simp at this

theorem mem_candidates {τ : List ℕ} {r s : ℕ} (hrs : r ≤ s)
    (h : τ ∈ candidates r s) : τ.length = r ∧ τ.Nodup ∧ ∀ x ∈ τ, x < s := by
  rcases List.mem_map.1 h with ⟨perm, hperm, rfl⟩
  have hp : List.Perm perm (List.range s) := List.mem_permutations.1 hperm
  have hlen : perm.length = s := hp.length_eq.trans (List.length_range s)
  have hnd : perm.Nodup := hp.nodup_iff.2 (List.nodup_range s)
  refine ⟨?_, hnd.sublist (List.take_sublist r perm), ?_⟩
  · rw [List.length_take, hlen]
    exact Nat.min_eq_left hrs
  · intro x hx
    have : x ∈ List.range s := hp.mem_iff.1 (List.mem_of_mem_take hx)
    exact List.mem_range.1 this

theorem mem_candidates_of {τ : List ℕ} {r s : ℕ}
    (h1 : τ.Nodup) (h2 : ∀ x ∈ τ, x < s) (h3 : τ.length = r) :
    τ ∈ candidates r s := by
  classical
  have hmemrest : ∀ a, a ∈ (List.range s).filter (fun x => decide (x ∉ τ))
      ↔ a < s ∧ a ∉ τ := by
    intro a
    rw [List.mem_filter]
    simp [List.mem_range]
  have hperm : List.Perm
      (τ ++ (List.range s).filter (fun x => decide (x ∉ τ)))
      (List.range s) := by
    refine (List.perm_ext_iff_of_nodup ?_ (List.nodup_range s)).2 ?_
    · refine List.Nodup.append h1 ((List.nodup_range s).filter _) ?_
      intro a haτ harest
      exact ((hmemrest a).1 harest).2 haτ
    · intro a
      rw [List.mem_append, hmemrest a, List.mem_range]
      constructor
      · rintro (ha | ⟨ha, -⟩)
        · exact h2 a ha
        · exact ha
      · intro ha
        by_cases hmem : a ∈ τ
        · exact Or.inl hmem
        · exact Or.inr ⟨ha, hmem⟩
  refine List.mem_map.2
    ⟨τ ++ (List.range s).filter (fun x => decide (x ∉ τ)),
     List.mem_permutations.2 hperm, ?_⟩
  rw [← h3, List.take_left]

theorem solveLE_spec (M : List (List ℚ)) (r s : ℕ) :
    solveLE M r s ∈ candidates r s
      ∧ ∀ τ ∈ candidates r s, candCost M (solveLE M r s) ≤ candCost M τ := by
  have hne := candidates_ne_nil r s
  have hsome := pickMin_isSome (f := candCost M) hne
  rcases hp : pickMin (candCost M) (candidates r s) with - | σ
  · rw [hp] at hsome; simp at hsome
  · have : solveLE M r s = σ := by rw [solveLE, hp]; rfl
    rw [this]
    exact ⟨pickMin_mem hp, pickMin_le hp⟩

theorem findIdx?_eq_some_iff_of_nodup {σ : List ℕ} (hnd : σ.Nodup) {j i : ℕ} :
    σ.findIdx? (fun x => x = j) = some i ↔ ∃ h : i < σ.length, σ[i] = j := by
  rw [List.findIdx?_eq_some_iff_getElem]
  constructor
  · rintro ⟨h, hp, -⟩
    exact ⟨h, by simpa using hp⟩
  · rintro ⟨h, hp⟩
    refine ⟨h, by simpa using hp, ?_⟩
    intro j' hj'
    simp only [decide_eq_true_eq]
    intro hc
    have hjlt : j' < σ.length := lt_trans hj' h
    have : σ[j'] = σ[i] := by rw [hp, hc]
    have := (hnd.getElem_inj_iff).1 this
    omega

theorem invOf_length (σ : List ℕ) (n : ℕ) : (invOf σ n).length = n := by
  simp [invOf]

theorem invOf_getD {σ : List ℕ} {n j : ℕ} (hj : j < n) :
    (invOf σ n).getD j (-1)
      = (match σ.findIdx? (fun x => x = j) with
         | some i => (i : ℤ)
         | none => -1) := by
  have hlen : j < (invOf σ n).length := by rw [invOf_length]; exact hj
  rw [List.getD_eq_getElem _ _ hlen]
  simp only [invOf]
  rw [List.getElem_map, List.getElem_range]

theorem invOf_getD_eq_iff {σ : List ℕ} (hnd : σ.Nodup) {n i j : ℕ} (hj : j < n) :
    (invOf σ n).getD j (-1) = (i : ℤ) ↔ ∃ h : i < σ.length, σ[i] = j := by
  rw [invOf_getD hj]
  rcases hf : σ.findIdx? (fun x => x = j) with - | i'
  · simp only []
    constructor
    · intro h; exact absurd h (by omega)
    · rintro ⟨h, hp⟩
      have : σ.findIdx? (fun x => x = j) = some i :=
        (findIdx?_eq_some_iff_of_nodup hnd).2 ⟨h, hp⟩
      rw [hf] at this; exact Option.noConfusion this
  · simp only [Int.natCast_inj]
    constructor
    · intro h
      have hi' : i' = i := by exact_mod_cast h
      exact (findIdx?_eq_some_iff_of_nodup hnd).1 (hi' ▸ hf)
    · rintro ⟨h, hp⟩
      have : σ.findIdx? (fun x => x = j) = some i :=
        (findIdx?_eq_some_iff_of_nodup hnd).2 ⟨h, hp⟩
      rw [hf] at this
      exact Option.some.inj this

theorem invOf_matched_count {σ : List ℕ} {n : ℕ} (hnd : σ.Nodup)
    (hb : ∀ x ∈ σ, x < n) :
    ((invOf σ n).filter (fun z => z ≠ -1)).length = σ.length
      ∧ ((invOf σ n).filter (fun z => z = -1)).length = n - σ.length := by
  classical
  have key : ∀ j ∈ List.range n,
      ((fun z : ℤ => decide (z ≠ -1)) ∘ fun j =>
        (match σ.findIdx? (fun x => x = j) with
         | some i => (i : ℤ)
         | none => -1)) j = (fun j => decide (j ∈ σ)) j := by
    intro j hj
    simp only [Function.comp_apply]
    rcases hf : σ.findIdx? (fun x => x = j) with - | i
    · have hnot : ∀ x ∈ σ, ¬(x = j) := by
        have := List.findIdx?_eq_none_iff.1 hf
        intro x hx
        simpa using this x hx
      simp only [decide_eq_decide]
      constructor
      · intro hc; exact absurd rfl hc
      · intro hc
        exact absurd rfl (hnot j hc)
    · obtain ⟨h, hp⟩ := (findIdx?_eq_some_iff_of_nodup hnd).1 hf
      simp only [decide_eq_decide]
      constructor
      · intro _
        exact hp ▸ List.getElem_mem h
      · intro _
        omega
  have hfilter_len :
      ((invOf σ n).filter (fun z => z ≠ -1)).length
        = ((List.range n).filter (fun j => decide (j ∈ σ))).length := by
    have h1 : invOf σ n = (List.range n).map (fun j =>
        (match σ.findIdx? (fun x => x = j) with
         | some i => (i : ℤ)
         | none => -1)) := rfl
    rw [h1, List.filter_map, List.length_map, List.filter_congr key]
  have hcount : ((List.range n).filter (fun j => decide (j ∈ σ))).length
      = σ.length := by
    have hnodupf : ((List.range n).filter (fun j => decide (j ∈ σ))).Nodup :=
      (List.nodup_range n).filter _
    have htf : ((List.range n).filter (fun j => decide (j ∈ σ))).toFinset
        = σ.toFinset := by
      apply Finset.ext
      intro a
      simp only [List.mem_toFinset, List.mem_filter, List.mem_range,
        decide_eq_true_eq]
      exact ⟨fun h => h.2, fun h => ⟨hb a h, h⟩⟩
    calc ((List.range n).filter (fun j => decide (j ∈ σ))).length
        = ((List.range n).filter (fun j => decide (j ∈ σ))).toFinset.card :=
          (List.toFinset_card_of_nodup hnodupf).symm
      _ = σ.toFinset.card := by rw [htf]
      _ = σ.length := List.toFinset_card_of_nodup hnd
  have hm : ((invOf σ n).filter (fun z => z ≠ -1)).length = σ.length :=
    hfilter_len.trans hcount
  refine ⟨hm, ?_⟩
  have htotal : ((invOf σ n).filter (fun z => z = -1)).length
      + ((invOf σ n).filter (fun z => z ≠ -1)).length = n := by
    have h0 := (List.length_eq_length_filter_add
      (l := invOf σ n) (fun z : ℤ => z = -1)).symm
    rw [invOf_length] at h0
    have heq : (invOf σ n).filter (fun x : ℤ => !(decide (x = -1)))
        = (invOf σ n).filter (fun z : ℤ => z ≠ -1) := by
      apply List.filter_congr
      intro z _
      simp [decide_not]
    rw [heq] at h0
    exact h0
  omega

theorem assign_pack {σ : List ℕ} {k n : ℕ}
    (hlen : σ.length = k) (hnd : σ.Nodup) (hb : ∀ x ∈ σ, x < n) :
    (σ.map (fun x : ℕ => (x : ℤ))).length = k
    ∧ ((σ.map (fun x : ℕ => (x : ℤ))).filter (fun z => z ≠ -1)).length = k
    ∧ ((σ.map (fun x : ℕ => (x : ℤ))).filter (fun z => z = -1)).length = 0
    ∧ ((invOf σ n).filter (fun z => z ≠ -1)).length = k
    ∧ ((invOf σ n).filter (fun z => z = -1)).length = n - k
    ∧ (∀ i j : ℕ, i < k → j < n →
        ((σ.map (fun x : ℕ => (x : ℤ))).getD i (-1) = (j : ℤ)
          ↔ (invOf σ n).getD j (-1) = (i : ℤ))) := by
  have hpos : ∀ z ∈ σ.map (fun x : ℕ => (x : ℤ)), z ≠ -1 := by
    intro z hz
    rcases List.mem_map.1 hz with ⟨x, -, rfl⟩
    show (x : ℤ) ≠ -1
    omega
  have hfs : (σ.map (fun x : ℕ => (x : ℤ))).filter (fun z => z ≠ -1) = σ.map (fun x : ℕ => (x : ℤ)) := by
    rw [List.filter_eq_self]
    intro a ha; simpa using hpos a ha
  have hfn : (σ.map (fun x : ℕ => (x : ℤ))).filter (fun z => z = -1) = [] := by
    rw [List.filter_eq_nil_iff]
    intro a ha; simpa using hpos a ha
  obtain ⟨hm1, hm2⟩ := invOf_matched_count hnd hb
  refine ⟨by simp [hlen], by rw [hfs]; simp [hlen], by simp [hfn],
    by rw [hm1, hlen], by rw [hm2, hlen], ?_⟩
  intro i j hik hjn
  have hiσ : i < σ.length := hlen ▸ hik
  have hilen : i < (σ.map (fun x : ℕ => (x : ℤ))).length := by
    rw [List.length_map]; exact hiσ
  rw [List.getD_eq_getElem _ _ hilen, List.getElem_map]
  rw [invOf_getD_eq_iff hnd hjn]
  constructor
  · intro h
    exact ⟨hiσ, by exact_mod_cast h⟩
  · rintro ⟨h1, hp⟩
    exact_mod_cast hp

/-- Claim C5: For every well-formed rectangular cost matrix, the
`AssignmentResult` matches exactly `min(rows, cols)` pairs on each side,
the two index arrays are mutually inverse on matched pairs
(`a_to_b[i] = j` iff `b_to_a[j] = i`), and the total number of `-1`
sentinel entries equals the absolute difference of the two cardinalities
(they all sit on the larger side). -/
theorem compute_assignments_invariants (M : List (List ℚ))
    (_hr : 0 < M.length) (_hs : 0 < colCount M)
    (_hwf : ∀ row ∈ M, row.length = colCount M) :
    (compute_assignments M).a_to_b.length = M.length
    ∧ (compute_assignments M).b_to_a.length = colCount M
    ∧ ((compute_assignments M).a_to_b.filter (fun z => z ≠ -1)).length
        = min M.length (colCount M)
    ∧ ((compute_assignments M).b_to_a.filter (fun z => z ≠ -1)).length
        = min M.length (colCount M)
    ∧ ((compute_assignments M).a_to_b.filter (fun z => z = -1)).length
        + ((compute_assignments M).b_to_a.filter (fun z => z = -1)).length
        = max M.length (colCount M) - min M.length (colCount M)
    ∧ (∀ i j : ℕ, i < M.length → j < colCount M →
        ((compute_assignments M).a_to_b.getD i (-1) = (j : ℤ)
          ↔ (compute_assignments M).b_to_a.getD j (-1) = (i : ℤ))) := by
  by_cases hrs : M.length ≤ colCount M
  · have hA : compute_assignments M
        = ⟨(solveLE M M.length (colCount M)).map (fun x : ℕ => (x : ℤ)),
           invOf (solveLE M M.length (colCount M)) (colCount M),
           candCost M (solveLE M M.length (colCount M))⟩ := by
      simp only [compute_assignments]
      rw [if_pos hrs]
    obtain ⟨hσlen, hσnd, hσb⟩ :=
      mem_candidates hrs (solveLE_spec M M.length (colCount M)).1
    obtain ⟨p1, p2, p3, p4, p5, p6⟩ := assign_pack hσlen hσnd hσb
    rw [hA]
    refine ⟨p1, invOf_length _ _, by rw [p2]; omega, by rw [p4]; omega,
      by rw [p3, p5]; omega, ?_⟩
    intro i j hi hj
    exact p6 i j (by omega) hj
  · push_neg at hrs
    have hsr : colCount M ≤ M.length := le_of_lt hrs
    have hA : compute_assignments M
        = ⟨invOf (solveLE (transposeM M (colCount M)) (colCount M) M.length)
             M.length,
           (solveLE (transposeM M (colCount M)) (colCount M) M.length).map
             (fun x : ℕ => (x : ℤ)),
           candCost (transposeM M (colCount M))
             (solveLE (transposeM M (colCount M)) (colCount M) M.length)⟩ := by
      simp only [compute_assignments]
      rw [if_neg (not_le.mpr hrs)]
    obtain ⟨hσlen, hσnd, hσb⟩ :=
      mem_candidates hsr
        (solveLE_spec (transposeM M (colCount M)) (colCount M) M.length).1
    obtain ⟨p1, p2, p3, p4, p5, p6⟩ := assign_pack hσlen hσnd hσb
    rw [hA]
    refine ⟨invOf_length _ _, p1, by rw [p4]; omega, by rw [p2]; omega,
      by rw [p5, p3]; omega, ?_⟩
    intro i j hi hj
    exact (p6 j i (by omega) hi).symm

theorem compute_assignments_invariants_witness :
    (0 : ℕ) < ([[0, 1, 2], [1, 0, 1]] : List (List ℚ)).length
    ∧ (0 : ℕ) < colCount ([[0, 1, 2], [1, 0, 1]] : List (List ℚ))
    ∧ ((compute_assignments ([[0, 1, 2], [1, 0, 1]] : List (List ℚ))).a_to_b.filter
        (fun z => z ≠ -1)).length
      = min ([[0, 1, 2], [1, 0, 1]] : List (List ℚ)).length
          (colCount ([[0, 1, 2], [1, 0, 1]] : List (List ℚ))) :=
  ⟨by decide, by decide,
    (compute_assignments_invariants ([[0, 1, 2], [1, 0, 1]] : List (List ℚ))
      (by decide) (by decide) (by decide)).2.2.1⟩

theorem entry_cappedMatrix_le (M : List (List ℚ)) (c : ℚ) (hc : 0 ≤ c)
    (i j : ℕ) : entry (cappedMatrix M c) i j ≤ c := by
  unfold entry cappedMatrix
  by_cases hi : i < M.length
  · have hi' : i < (M.map (·.map (fun x => min x c))).length := by
      rw [List.length_map]; exact hi
    rw [List.getD_eq_getElem _ _ hi', List.getElem_map]
    by_cases hj : j < (M[i]).length
    · have hj' : j < ((M[i]).map (fun x => min x c)).length := by
        rw [List.length_map]; exact hj
      rw [List.getD_eq_getElem _ _ hj', List.getElem_map]
      exact min_le_right _ _
    · rw [List.getD_eq_getElem?_getD, List.getElem?_eq_none_iff.mpr (by simpa using not_lt.1 hj)]
      exact hc
  · rw [List.getD_eq_getElem?_getD (M.map (·.map (fun x => min x c))) i [],
      List.getElem?_eq_none_iff.mpr (by simpa using not_lt.1 hi)]
    simpa using hc

theorem foldr_max_le {l : List ℚ} {c : ℚ} (h0 : 0 ≤ c) (h : ∀ x ∈ l, x ≤ c) :
    l.foldr max 0 ≤ c := by
  induction l with
  | nil => exact h0
  | cons a t ih =>
    simp only [List.foldr_cons]
    exact max_le (h a (List.mem_cons_self _ _))
      (ih fun x hx => h x (List.mem_cons_of_mem _ hx))

/-- Claim C2: OSPA at `p = ∞` returns
`max(max_matched min(dist, c), c if n ≠ m else 0)`; in particular a
cardinality mismatch alone forces the result to the cap value `c`, since
every matched (capped) distance is at most `c`. -/
theorem ospa_inf_spec (tracks truths : List ℚ) (c : ℚ) (hc : 0 ≤ c)
    (hn : 0 < max tracks.length truths.length) :
    ospaDistInf tracks truths c
      = max (((assignPairs (ospaMatrix tracks truths c)).map
          (fun ij => entry (cappedMatrix (costMatrix tracks truths) c) ij.1 ij.2)).foldr max 0)
        (if tracks.length = truths.length then 0 else c)
    ∧ (tracks.length ≠ truths.length → ospaDistInf tracks truths c = c) := by
  have hne : ¬ (max tracks.length truths.length = 0) := hn.ne'
  constructor
  · rw [ospaDistInf, if_neg hne]
  · intro hne2
    rw [ospaDistInf, if_neg hne, if_neg hne2]
    apply max_eq_right
    apply foldr_max_le hc
    intro x hx
    rcases List.mem_map.1 hx with ⟨ij, -, rfl⟩
    exact entry_cappedMatrix_le _ _ hc _ _

theorem ospa_inf_spec_witness :
    ospaDistInf [1/2] [0, 1] 10
      = max (((assignPairs (ospaMatrix [1/2] [0, 1] 10)).map
          (fun ij => entry (cappedMatrix (costMatrix [1/2] [0, 1]) 10) ij.1 ij.2)).foldr max 0)
        (if ([1/2] : List ℚ).length = ([0, 1] : List ℚ).length then 0 else 10)
    ∧ (([1/2] : List ℚ).length ≠ ([0, 1] : List ℚ).length →
        ospaDistInf [1/2] [0, 1] 10 = 10) :=
  ospa_inf_spec [1/2] [0, 1] 10 (by norm_num) (by decide)

theorem length_pairsOf (σ : List ℕ) : (pairsOf σ).length = σ.length := by
  simp [pairsOf]

theorem map_fst_pairsOf (σ : List ℕ) :
    (pairsOf σ).map Prod.fst = List.range σ.length := by
  rw [pairsOf, List.map_map]
  have h : (Prod.fst ∘ fun i => (i, σ.getD i 0)) = id := rfl
  rw [h, List.map_id]

theorem map_snd_pairsOf (σ : List ℕ) : (pairsOf σ).map Prod.snd = σ := by
  rw [pairsOf, List.map_map]
  apply List.ext_getElem
  · simp
  · intro n h1 h2
    simp only [List.getElem_map, List.getElem_range, Function.comp_apply]
    exact List.getD_eq_getElem σ 0 h2

theorem mem_pairsOf {σ : List ℕ} {x : ℕ × ℕ} :
    x ∈ pairsOf σ ↔ x.1 < σ.length ∧ x.2 = σ.getD x.1 0 := by
  obtain ⟨a, b⟩ := x
  rw [pairsOf, List.mem_map]
  constructor
  · rintro ⟨i, hi, heq⟩
    rw [← heq]
    exact ⟨List.mem_range.1 hi, rfl⟩
  · rintro ⟨h1, h2⟩
    exact ⟨a, List.mem_range.2 h1, by rw [← h2]⟩

theorem pairsOf_isMatching {σ : List ℕ} {r s : ℕ} (hrs : r ≤ s)
    (hlen : σ.length = r) (hnd : σ.Nodup) (hb : ∀ x ∈ σ, x < s) :
    IsMatching r s (pairsOf σ) := by
  refine ⟨?_, ?_, ?_, ?_⟩
  · rw [length_pairsOf, hlen, Nat.min_eq_left hrs]
  · rw [map_fst_pairsOf]; exact List.nodup_range _
  · rw [map_snd_pairsOf]; exact hnd
  · intro ij hij
    obtain ⟨h1, h2⟩ := mem_pairsOf.1 hij
    have hmem : σ.getD ij.1 0 ∈ σ := by
      rw [List.getD_eq_getElem σ 0 h1]; exact List.getElem_mem _
    exact ⟨by omega, h2 ▸ hb _ hmem⟩

theorem matching_fst_complete {q : List (ℕ × ℕ)} {r : ℕ}
    (hfnd : (q.map Prod.fst).Nodup) (hqr : q.length = r)
    (hbound : ∀ ij ∈ q, ij.1 < r) :
    ∀ i, i < r → ∃ pr, pr ∈ q ∧ pr.1 = i := by
  classical
  have hsub : (q.map Prod.fst).toFinset ⊆ Finset.range r := by
    intro a ha
    rcases List.mem_map.1 (List.mem_toFinset.1 ha) with ⟨pr, hpr, rfl⟩
    exact Finset.mem_range.2 (hbound pr hpr)
  have hcard : (q.map Prod.fst).toFinset.card = r := by
    rw [List.toFinset_card_of_nodup hfnd, List.length_map, hqr]
  have heq : (q.map Prod.fst).toFinset = Finset.range r :=
    Finset.eq_of_subset_of_card_le hsub (by rw [hcard, Finset.card_range])
  intro i hi
  have : i ∈ (q.map Prod.fst).toFinset := heq ▸ Finset.mem_range.2 hi
  rcases List.mem_map.1 (List.mem_toFinset.1 this) with ⟨pr, hpr, rfl⟩
  exact ⟨pr, hpr, rfl⟩

theorem partnerIn_mem {q : List (ℕ × ℕ)} {i : ℕ}
    (h : ∃ pr, pr ∈ q ∧ pr.1 = i) : (i, partnerIn q i) ∈ q := by
  rcases h with ⟨pr, hpr, hfst⟩
  rcases hfind : q.find? (fun pr => pr.1 = i) with - | pr'
  · exfalso
    have := List.find?_eq_none.1 hfind pr hpr
    simp [hfst] at this
  · have hmem := List.mem_of_find?_eq_some hfind
    have hfst' : pr'.1 = i := by simpa using List.find?_some hfind
    have : partnerIn q i = pr'.2 := by rw [partnerIn, hfind]; rfl
    rw [this, ← hfst']
    exact hmem

theorem partnerIn_eq {q : List (ℕ × ℕ)} (hfnd : (q.map Prod.fst).Nodup) :
    ∀ pr ∈ q, partnerIn q pr.1 = pr.2 := by
  intro pr hpr
  rcases hfind : q.find? (fun x => x.1 = pr.1) with - | pr''
  · exfalso
    have := List.find?_eq_none.1 hfind pr hpr
    simp at this
  · have hmem := List.mem_of_find?_eq_some hfind
    have hfst : pr''.1 = pr.1 := by simpa using List.find?_some hfind
    have hinj := List.inj_on_of_nodup_map hfnd hmem hpr hfst
    rw [partnerIn, hfind, hinj]
    rfl

theorem matching_cost_eq (M : List (List ℚ)) {q : List (ℕ × ℕ)} {r s : ℕ}
    (hrs : r ≤ s) (hq : IsMatching r s q) :
    ∃ τ ∈ candidates r s, matchCost M q = candCost M τ := by
  obtain ⟨hqlen, hfnd, hsnd, hbound⟩ := hq
  have hqr : q.length = r := by rw [hqlen]; exact Nat.min_eq_left hrs
  have hcomplete := matching_fst_complete hfnd hqr (fun ij h => (hbound ij h).1)
  have hqnd : q.Nodup := List.Nodup.of_map _ hfnd
  have hRHSnd : ((List.range r).map (fun i => (i, partnerIn q i))).Nodup :=
    List.Nodup.map (fun a b h => congrArg Prod.fst h) (List.nodup_range r)
  have hperm : List.Perm q ((List.range r).map (fun i => (i, partnerIn q i))) := by
    refine (List.perm_ext_iff_of_nodup hqnd hRHSnd).2 ?_
    intro x
    constructor
    · intro hx
      refine List.mem_map.2 ⟨x.1, List.mem_range.2 (hbound x hx).1, ?_⟩
      have := partnerIn_eq hfnd x hx
      obtain ⟨a, b⟩ := x
      simp only at this
      rw [this]
    · intro hx
      rcases List.mem_map.1 hx with ⟨i, hi, rfl⟩
      exact partnerIn_mem (hcomplete i (List.mem_range.1 hi))
  have hτlen : ((List.range r).map (partnerIn q)).length = r := by simp
  have hτmap : ((List.range r).map (fun i => (i, partnerIn q i))).map Prod.snd
      = (List.range r).map (partnerIn q) := by
    rw [List.map_map]; rfl
  have hτnd : ((List.range r).map (partnerIn q)).Nodup := by
    rw [← hτmap]
    exact (hperm.map Prod.snd).nodup hsnd
  have hτb : ∀ x ∈ (List.range r).map (partnerIn q), x < s := by
    intro x hx
    rcases List.mem_map.1 hx with ⟨i, hi, rfl⟩
    exact (hbound _ (partnerIn_mem (hcomplete i (List.mem_range.1 hi)))).2
  have hpairs : pairsOf ((List.range r).map (partnerIn q))
      = (List.range r).map (fun i => (i, partnerIn q i)) := by
    rw [pairsOf, hτlen]
    apply List.map_congr_left
    intro i hi
    have hilt : i < ((List.range r).map (partnerIn q)).length := by
      rw [hτlen]; exact List.mem_range.1 hi
    rw [List.getD_eq_getElem _ _ hilt, List.getElem_map, List.getElem_range]
  refine ⟨(List.range r).map (partnerIn q),
    mem_candidates_of hτnd hτb hτlen, ?_⟩
  rw [candCost, hpairs, matchCost, matchCost]
  exact (hperm.map _).sum_eq

theorem entry_transposeM (M : List (List ℚ)) {s j : ℕ} (hj : j < s) (i : ℕ) :
    entry (transposeM M s) j i = entry M i j := by
  have hrow : (transposeM M s).getD j [] = M.map (fun row => row.getD j 0) := by
    have hjlen : j < (transposeM M s).length := by
      rw [transposeM, List.length_map, List.length_range]; exact hj
    rw [List.getD_eq_getElem _ _ hjlen]
    simp only [transposeM, List.getElem_map, List.getElem_range]
  rw [entry, hrow]
  by_cases hi : i < M.length
  · have hi' : i < (M.map (fun row => row.getD j 0)).length := by
      rw [List.length_map]; exact hi
    rw [List.getD_eq_getElem _ _ hi', List.getElem_map, entry,
      List.getD_eq_getElem _ _ hi]
  · rw [List.getD_eq_getElem?_getD (M.map (fun row => row.getD j 0)) i 0,
      List.getElem?_eq_none_iff.mpr (by simpa using not_lt.1 hi)]
    rw [entry, List.getD_eq_getElem?_getD M i [],
      List.getElem?_eq_none_iff.mpr (not_lt.1 hi)]
    rfl

theorem matchCost_transposeM (M : List (List ℚ)) {s : ℕ} (q : List (ℕ × ℕ))
    (hb : ∀ ij ∈ q, ij.1 < s) :
    matchCost (transposeM M s) q = matchCost M (q.map Prod.swap) := by
  rw [matchCost, matchCost, List.map_map]
  congr 1
  apply List.map_congr_left
  intro ij hij
  exact entry_transposeM M (hb ij hij) ij.2

theorem assignPairs_isMatching (M : List (List ℚ)) :
    IsMatching M.length (colCount M) (assignPairs M)
    ∧ ∀ q, IsMatching M.length (colCount M) q →
        matchCost M (assignPairs M) ≤ matchCost M q := by
  by_cases hrs : M.length ≤ colCount M
  · have hP : assignPairs M = pairsOf (solveLE M M.length (colCount M)) := by
      rw [assignPairs]
      exact if_pos hrs
    obtain ⟨hσmem, hσmin⟩ := solveLE_spec M M.length (colCount M)
    obtain ⟨hσlen, hσnd, hσb⟩ := mem_candidates hrs hσmem
    constructor
    · rw [hP]
      exact pairsOf_isMatching hrs hσlen hσnd hσb
    · intro q hq
      obtain ⟨τ, hτmem, hτcost⟩ := matching_cost_eq M hrs hq
      rw [hP, hτcost]
      exact hσmin τ hτmem
  · push_neg at hrs
    have hsr : colCount M ≤ M.length := le_of_lt hrs
    have hP : assignPairs M
        = (pairsOf (solveLE (transposeM M (colCount M)) (colCount M)
            M.length)).map Prod.swap := by
      rw [assignPairs]
      exact if_neg (not_le.mpr hrs)
    obtain ⟨hσmem, hσmin⟩ :=
      solveLE_spec (transposeM M (colCount M)) (colCount M) M.length
    obtain ⟨hσlen, hσnd, hσb⟩ := mem_candidates hsr hσmem
    have hσfstlt : ∀ ij ∈ pairsOf (solveLE (transposeM M (colCount M))
        (colCount M) M.length), ij.1 < colCount M := by
      intro ij hij
      have := (mem_pairsOf.1 hij).1
      omega
    have hcostP : matchCost M (assignPairs M)
        = candCost (transposeM M (colCount M))
            (solveLE (transposeM M (colCount M)) (colCount M) M.length) := by
      rw [hP, candCost, matchCost_transposeM M _ hσfstlt]
    constructor
    · rw [hP]
      obtain ⟨m1, m2, m3, m4⟩ :=
        pairsOf_isMatching hsr hσlen hσnd hσb
      refine ⟨?_, ?_, ?_, ?_⟩
      · rw [List.length_map, m1]; omega
      · have : ((pairsOf (solveLE (transposeM M (colCount M)) (colCount M)
            M.length)).map Prod.swap).map Prod.fst
            = (pairsOf (solveLE (transposeM M (colCount M)) (colCount M)
                M.length)).map Prod.snd := by
          rw [List.map_map]; rfl
        rw [this]; exact m3
      · have : ((pairsOf (solveLE (transposeM M (colCount M)) (colCount M)
            M.length)).map Prod.swap).map Prod.snd
            = (pairsOf (solveLE (transposeM M (colCount M)) (colCount M)
                M.length)).map Prod.fst := by
          rw [List.map_map]; rfl
        rw [this]; exact m2
      · intro ij hij
        rcases List.mem_map.1 hij with ⟨kl, hkl, rfl⟩
        obtain ⟨h1, h2⟩ := m4 kl hkl
        exact ⟨h2, h1⟩
    · intro q hq
      obtain ⟨hqlen, hqf, hqs, hqb⟩ := hq
      have hq' : IsMatching (colCount M) M.length (q.map Prod.swap) := by
        refine ⟨?_, ?_, ?_, ?_⟩
        · rw [List.length_map, hqlen]; omega
        · have : (q.map Prod.swap).map Prod.fst = q.map Prod.snd := by
            rw [List.map_map]; rfl
          rw [this]; exact hqs
        · have : (q.map Prod.swap).map Prod.snd = q.map Prod.fst := by
            rw [List.map_map]; rfl
          rw [this]; exact hqf
        · intro ij hij
          rcases List.mem_map.1 hij with ⟨kl, hkl, rfl⟩
          obtain ⟨h1, h2⟩ := hqb kl hkl
          exact ⟨h2, h1⟩
      obtain ⟨τ, hτmem, hτcost⟩ := matching_cost_eq
        (transposeM M (colCount M)) hsr hq'
      have hback : matchCost (transposeM M (colCount M)) (q.map Prod.swap)
          = matchCost M q := by
        rw [matchCost_transposeM M _ (by
          intro ij hij
          rcases List.mem_map.1 hij with ⟨kl, hkl, rfl⟩
          exact (hqb kl hkl).2)]
        rw [List.map_map]
        have : (Prod.swap ∘ Prod.swap : ℕ × ℕ → ℕ × ℕ) = id := by
          funext x; cases x; rfl
        rw [this, List.map_id]
      rw [hcostP, ← hback, hτcost]
      exact hσmin τ hτmem

theorem entries_nonneg_entry (M : List (List ℚ))
    (h : ∀ row ∈ M, ∀ x ∈ row, 0 ≤ x) (i j : ℕ) : 0 ≤ entry M i j := by
  rw [entry]
  by_cases hi : i < M.length
  · rw [List.getD_eq_getElem _ _ hi]
    by_cases hj : j < (M[i]).length
    · rw [List.getD_eq_getElem _ _ hj]
      exact h _ (List.getElem_mem _) _ (List.getElem_mem _)
    · rw [List.getD_eq_getElem?_getD, List.getElem?_eq_none_iff.mpr (not_lt.1 hj)]
      exact le_refl 0
  · rw [List.getD_eq_getElem?_getD M i [], List.getElem?_eq_none_iff.mpr (not_lt.1 hi)]
    exact le_refl 0

theorem ospaMatrix_entries_nonneg (tracks truths : List ℚ) {c : ℚ}
    (hc : 0 ≤ c) : ∀ row ∈ ospaMatrix tracks truths c, ∀ x ∈ row, 0 ≤ x := by
  intro row hrow x hx
  rcases List.mem_map.1 hrow with ⟨row0, hrow0, rfl⟩
  rcases List.mem_map.1 hx with ⟨y, hy, rfl⟩
  rcases List.mem_map.1 hrow0 with ⟨a, -, rfl⟩
  rcases List.mem_map.1 hy with ⟨b, -, rfl⟩
  exact le_min (abs_nonneg _) hc

theorem ospaMatrix_length (tracks truths : List ℚ) (c : ℚ) :
    (ospaMatrix tracks truths c).length = tracks.length := by
  simp [ospaMatrix, cappedMatrix, costMatrix]

theorem ospaMatrix_colCount {tracks : List ℚ} (truths : List ℚ) (c : ℚ)
    (h : tracks ≠ []) :
    colCount (ospaMatrix tracks truths c) = truths.length := by
  cases tracks with
  | nil => exact absurd rfl h
  | cons a t => simp [ospaMatrix, colCount, cappedMatrix, costMatrix]

theorem ospaDistPow_nonneg (tracks truths : List ℚ) {c : ℚ} (p : ℕ)
    (hc : 0 ≤ c) : 0 ≤ ospaDistPow tracks truths c p := by
  rw [ospaDistPow]
  by_cases hn : max tracks.length truths.length = 0
  · rw [if_pos hn]
  · rw [if_neg hn]
    apply div_nonneg
    · apply add_nonneg
      · apply List.sum_nonneg
        intro x hx
        rcases List.mem_map.1 hx with ⟨ij, -, rfl⟩
        exact pow_nonneg
          (entries_nonneg_entry _ (ospaMatrix_entries_nonneg tracks truths hc) _ _) p
      · apply mul_nonneg
        · rw [sub_nonneg]
          exact_mod_cast Nat.cast_le.2 (min_le_max)
        · exact pow_nonneg hc p
    · exact_mod_cast Nat.zero_le _

/-- Claim C3: For every pair of state sets with `n = max(|tracks|, |truths|)`
and `m = min(|tracks|, |truths|)`: if `n = 0` the OSPA distance is `0`;
otherwise the matched pairs form a full matching of the smaller side that
minimises the total cost over the matrix capped at `c`, and the `p`-th
power of the OSPA distance equals
`(sum_matched min(dist, c)^p + (n - m) c^p) / n` (so the distance itself is
the `p`-th root of that value — last conjunct, at the real level). -/
theorem ospa_finite_spec (tracks truths : List ℚ) (c : ℚ) (p : ℕ)
    (hc : 0 ≤ c) (hp : 1 ≤ p) :
    (max tracks.length truths.length = 0 → ospaDistPow tracks truths c p = 0)
    ∧ (0 < max tracks.length truths.length →
        IsMatching tracks.length truths.length
            (assignPairs (ospaMatrix tracks truths c))
        ∧ (∀ q, IsMatching tracks.length truths.length q →
            matchCost (ospaMatrix tracks truths c)
                (assignPairs (ospaMatrix tracks truths c))
              ≤ matchCost (ospaMatrix tracks truths c) q)
        ∧ ospaDistPow tracks truths c p
            = ((((assignPairs (ospaMatrix tracks truths c)).map
                (fun ij => (entry (ospaMatrix tracks truths c) ij.1 ij.2) ^ p)).sum)
              + ((max tracks.length truths.length : ℚ)
                  - (min tracks.length truths.length : ℕ)) * c ^ p)
              / (max tracks.length truths.length : ℚ))
    ∧ (((ospaDistPow tracks truths c p : ℚ) : ℝ) ^ ((p : ℝ))⁻¹) ^ p
        = ((ospaDistPow tracks truths c p : ℚ) : ℝ) := by
  refine ⟨fun hn => by rw [ospaDistPow, if_pos hn], ?_, ?_⟩
  · intro hn
    have hne : ¬ (max tracks.length truths.length = 0) := hn.ne'
    refine ⟨?_, ?_, by rw [ospaDistPow, if_neg hne]⟩
    all_goals
      by_cases htr : tracks = []
    · subst htr
      have hM : ospaMatrix [] truths c = [] := rfl
      have hmm := (assignPairs_isMatching (ospaMatrix [] truths c)).1
      have hlen0 : (assignPairs (ospaMatrix [] truths c)).length = 0 := by
        have := hmm.1
        simpa [hM, colCount] using this
      have hnil : assignPairs (ospaMatrix [] truths c) = [] :=
        List.eq_nil_of_length_eq_zero hlen0
      rw [hnil]
      exact ⟨by simp, by simp, by simp, by simp⟩
    · obtain ⟨h1, -⟩ := assignPairs_isMatching (ospaMatrix tracks truths c)
      rwa [ospaMatrix_length, ospaMatrix_colCount truths c htr] at h1
    · subst htr
      intro q hq
      have hq0 : q.length = 0 := by
        have := hq.1
        simpa using this
      rw [List.eq_nil_of_length_eq_zero hq0]
      have hM : ospaMatrix [] truths c = [] := rfl
      have hmm := (assignPairs_isMatching (ospaMatrix [] truths c)).1
      have hlen0 : (assignPairs (ospaMatrix [] truths c)).length = 0 := by
        have := hmm.1
        simpa [hM, colCount] using this
      rw [List.eq_nil_of_length_eq_zero hlen0]
    · obtain ⟨-, h2⟩ := assignPairs_isMatching (ospaMatrix tracks truths c)
      rw [ospaMatrix_length, ospaMatrix_colCount truths c htr] at h2
      exact h2
  · exact Real.rpow_inv_natCast_pow
      (by exact_mod_cast ospaDistPow_nonneg tracks truths p hc) (by omega)

theorem ospa_finite_spec_witness :
    ospaDistPow ([] : List ℚ) ([] : List ℚ) 10 1 = 0
    ∧ IsMatching ([1/2] : List ℚ).length ([0, 1] : List ℚ).length
        (assignPairs (ospaMatrix [1/2] [0, 1] 10))
    ∧ ospaDistPow [1/2] [0, 1] 10 1
        = ((((assignPairs (ospaMatrix [1/2] [0, 1] 10)).map
            (fun ij => (entry (ospaMatrix [1/2] [0, 1] 10) ij.1 ij.2) ^ 1)).sum)
          + ((max ([1/2] : List ℚ).length ([0, 1] : List ℚ).length : ℚ)
              - (min ([1/2] : List ℚ).length ([0, 1] : List ℚ).length : ℕ)) * 10 ^ 1)
          / (max ([1/2] : List ℚ).length ([0, 1] : List ℚ).length : ℚ) :=
  ⟨(ospa_finite_spec [] [] 10 1 (by norm_num) le_rfl).1 (by decide),
   ((ospa_finite_spec [1/2] [0, 1] 10 1 (by norm_num) le_rfl).2.1 (by decide)).1,
   ((ospa_finite_spec [1/2] [0, 1] 10 1 (by norm_num) le_rfl).2.1 (by decide)).2.2⟩

theorem stepWeight_nonneg (old : Option TruthHistory) (v : Option ℕ) :
    0 ≤ stepWeight old v := by
  cases old with
  | none => exact le_refl 0
  | some hist =>
    show (0:ℚ) ≤ if hist.established = false then 0
      else if hist.last_id = v then 0
      else if hist.last_id.isSome && v.isSome then 1 else 1/2
    split
    · exact le_refl 0
    · split
      · exact le_refl 0
      · split <;> norm_num

theorem addAssoc_foldl_snd_nonneg (asg : List (ℕ × Option ℕ))
    (hs : List (ℕ × TruthHistory)) (w : ℚ) (hw : 0 ≤ w) :
    0 ≤ (asg.foldl
      (fun (acc : List (ℕ × TruthHistory) × ℚ) pr =>
        let old := lookupHist acc.1 pr.1
        (updateHist acc.1 pr.1 (stepHist old pr.2), acc.2 + stepWeight old pr.2))
      (hs, w)).2 := by
  induction asg generalizing hs w with
  | nil => exact hw
  | cons pr rest ih =>
    simp only [List.foldl_cons]
    exact ih _ _ (add_nonneg hw (stepWeight_nonneg _ _))

theorem addAssociations_snd_nonneg (s : SLState) (asg : List (ℕ × Option ℕ)) :
    0 ≤ (addAssociations s asg).2 := by
  simpa [addAssociations] using
    addAssoc_foldl_snd_nonneg asg s.histories 0 le_rfl

theorem assignPairs_length (M : List (List ℚ)) :
    (assignPairs M).length = min M.length (colCount M) :=
  (assignPairs_isMatching M).1.1

theorem gospaMatrix_length (tracks truths : List ℚ) (c : ℚ) (p : ℕ) :
    (gospaMatrix tracks truths c p).length = tracks.length := by
  simp [gospaMatrix, powMatrix, cappedMatrix, costMatrix]

theorem gospaKept_nil_truths (tracks : List ℚ) (c : ℚ) (p : ℕ) :
    gospaKept tracks [] c p = [] := by
  have hcol : colCount (gospaMatrix tracks [] c p) = 0 := by
    cases tracks with
    | nil => rfl
    | cons a t => simp [colCount, gospaMatrix, powMatrix, cappedMatrix, costMatrix]
  have hlen : (assignPairs (gospaMatrix tracks [] c p)).length = 0 := by
    rw [assignPairs_length, hcol]
    omega
  rw [gospaKept, List.eq_nil_of_length_eq_zero hlen]
  rfl

theorem gospaKept_nil_tracks (truths : List ℚ) (c : ℚ) (p : ℕ) :
    gospaKept [] truths c p = [] := by
  have hlen : (assignPairs (gospaMatrix [] truths c p)).length = 0 := by
    rw [assignPairs_length, gospaMatrix_length, List.length_nil]
    omega
  rw [gospaKept, List.eq_nil_of_length_eq_zero hlen]
  rfl

theorem gospaStep_distance_pow_eq (tracks truths : List ℚ) (c alpha : ℚ)
    (p : ℕ) (sp : Option ℚ) (sl : SLState) :
    (gospaStep c p alpha sp tracks truths sl).1.distance_pow
      = (gospaStep c p alpha sp tracks truths sl).1.localisation_pow
        + ((gospaStep c p alpha sp tracks truths sl).1.num_missed : ℚ)
            * (c ^ p / alpha)
        + ((gospaStep c p alpha sp tracks truths sl).1.num_false : ℚ)
            * (c ^ p / alpha)
        + (gospaStep c p alpha sp tracks truths sl).1.switching_pow := by
  cases sp <;> simp [gospaStep]

theorem gospaStep_locPow_nonneg (tracks truths : List ℚ) (c alpha : ℚ)
    (p : ℕ) (sp : Option ℚ) (sl : SLState) :
    0 ≤ (gospaStep c p alpha sp tracks truths sl).1.localisation_pow := by
  have h : ∀ x ∈ ((gospaKept tracks truths c p).map
      fun ij => (rawDist tracks truths ij.1 ij.2) ^ p), 0 ≤ x := by
    intro x hx
    rcases List.mem_map.1 hx with ⟨ij, -, rfl⟩
    exact pow_nonneg (abs_nonneg _) p
  cases sp <;> simp only [gospaStep] <;> exact List.sum_nonneg h

theorem gospaStep_switching_pow_nonneg (tracks truths : List ℚ)
    (c alpha : ℚ) (p : ℕ) (sp : Option ℚ) (sl : SLState)
    (hsp : ∀ v, sp = some v → 0 ≤ v) :
    0 ≤ (gospaStep c p alpha sp tracks truths sl).1.switching_pow := by
  cases sp with
  | none => simp [gospaStep]
  | some v =>
    simp only [gospaStep]
    exact mul_nonneg (pow_nonneg (hsp v rfl) p) (addAssociations_snd_nonneg _ _)

/-- Claim C1: For every timestep and all valid parameters (`c > 0`, finite
`p ≥ 1`, `alpha > 0`): with `distance = distance_pow ** (1/p)`, the GOSPA
metric satisfies
`distance^p = localisation^p + missed * dummy_cost + false * dummy_cost +
switching^p` where `dummy_cost = c^p / alpha` and `missed`/`false` are the
unmatched counts; the switching term is present only when
`switching_penalty` is configured (second conjunct). -/
theorem gospa_decomposition (tracks truths : List ℚ) (c alpha : ℚ) (p : ℕ)
    (sp : Option ℚ) (sl : SLState) (hc : 0 < c) (hp : 1 ≤ p) (ha : 0 < alpha)
    (hsp : ∀ v, sp = some v → 0 ≤ v) :
    ((((gospaStep c p alpha sp tracks truths sl).1.distance_pow : ℚ) : ℝ)
        ^ ((p : ℝ))⁻¹) ^ p
      = ((gospaStep c p alpha sp tracks truths sl).1.localisation_pow : ℝ)
        + ((gospaStep c p alpha sp tracks truths sl).1.num_missed : ℝ)
            * ((c : ℝ) ^ p / (alpha : ℝ))
        + ((gospaStep c p alpha sp tracks truths sl).1.num_false : ℝ)
            * ((c : ℝ) ^ p / (alpha : ℝ))
        + ((gospaStep c p alpha sp tracks truths sl).1.switching_pow : ℝ)
    ∧ (sp = none →
        (gospaStep c p alpha sp tracks truths sl).1.switching_pow = 0) := by
  have hfield := gospaStep_distance_pow_eq tracks truths c alpha p sp sl
  have hdummy : 0 ≤ c ^ p / alpha := div_nonneg (pow_nonneg hc.le p) ha.le
  have hdp : 0 ≤ (gospaStep c p alpha sp tracks truths sl).1.distance_pow := by
    rw [hfield]
    have h1 := gospaStep_locPow_nonneg tracks truths c alpha p sp sl
    have h2 := gospaStep_switching_pow_nonneg tracks truths c alpha p sp sl hsp
    have h3 : (0:ℚ) ≤ ((gospaStep c p alpha sp tracks truths sl).1.num_missed : ℚ)
        * (c ^ p / alpha) := mul_nonneg (Nat.cast_nonneg _) hdummy
    have h4 : (0:ℚ) ≤ ((gospaStep c p alpha sp tracks truths sl).1.num_false : ℚ)
        * (c ^ p / alpha) := mul_nonneg (Nat.cast_nonneg _) hdummy
    linarith
  constructor
  · rw [Real.rpow_inv_natCast_pow (by exact_mod_cast hdp) (by omega)]
    have := congrArg (fun q : ℚ => (q : ℝ)) hfield
    push_cast at this
    convert this using 2
  · intro h
    subst h
    simp [gospaStep]

theorem gospa_decomposition_witness :
    ((((gospaStep 1 1 1 none [0] [0] (initSL 1 1)).1.distance_pow : ℚ) : ℝ)
        ^ (((1:ℕ) : ℝ))⁻¹) ^ (1:ℕ)
      = ((gospaStep 1 1 1 none [0] [0] (initSL 1 1)).1.localisation_pow : ℝ)
        + ((gospaStep 1 1 1 none [0] [0] (initSL 1 1)).1.num_missed : ℝ)
            * (((1:ℚ) : ℝ) ^ (1:ℕ) / ((1:ℚ) : ℝ))
        + ((gospaStep 1 1 1 none [0] [0] (initSL 1 1)).1.num_false : ℝ)
            * (((1:ℚ) : ℝ) ^ (1:ℕ) / ((1:ℚ) : ℝ))
        + ((gospaStep 1 1 1 none [0] [0] (initSL 1 1)).1.switching_pow : ℝ)
    ∧ ((none : Option ℚ) = none →
        (gospaStep 1 1 1 none [0] [0] (initSL 1 1)).1.switching_pow = 0) :=
  gospa_decomposition [0] [0] 1 1 1 none (initSL 1 1) (by norm_num) le_rfl
    (by norm_num) (by intro v hv; exact Option.noConfusion hv)

/-- Claim C6: Empty input sets are valid, never-raising inputs: with zero
truths, `missed = 0` and `false = |tracks|` (as unmatched counts); with
zero tracks the mirror holds; with zero of both, every GOSPA component is
zero.  (The model is a total function, reflecting that these inputs never
raise.) -/
theorem gospa_empty_sets (tracks truths : List ℚ) (c alpha : ℚ) (p : ℕ)
    (sp : Option ℚ) (sl : SLState) :
    (truths = [] →
        (gospaStep c p alpha sp tracks truths sl).1.num_missed = 0
        ∧ (gospaStep c p alpha sp tracks truths sl).1.num_false = tracks.length)
    ∧ (tracks = [] →
        (gospaStep c p alpha sp tracks truths sl).1.num_false = 0
        ∧ (gospaStep c p alpha sp tracks truths sl).1.num_missed = truths.length)
    ∧ (tracks = [] → truths = [] →
        (gospaStep c p alpha sp tracks truths sl).1.distance_pow = 0
        ∧ (gospaStep c p alpha sp tracks truths sl).1.localisation_pow = 0
        ∧ (gospaStep c p alpha sp tracks truths sl).1.missed = 0
        ∧ (gospaStep c p alpha sp tracks truths sl).1.falseC = 0
        ∧ (gospaStep c p alpha sp tracks truths sl).1.switching_pow = 0) := by
  refine ⟨?_, ?_, ?_⟩
  · intro ht
    subst ht
    have hk := gospaKept_nil_truths tracks c p
    cases sp <;> simp [gospaStep, hk]
  · intro ht
    subst ht
    have hk := gospaKept_nil_tracks truths c p
    cases sp <;> simp [gospaStep, hk]
  · intro ht hu
    subst ht
    subst hu
    have hk := gospaKept_nil_tracks [] c p
    cases sp <;> simp [gospaStep, hk, gospaAssignMap, addAssociations]

theorem gospa_empty_sets_witness :
    ((gospaStep 10 1 2 none [1, 2] [] (initSL 1 1)).1.num_missed = 0
      ∧ (gospaStep 10 1 2 none [1, 2] [] (initSL 1 1)).1.num_false = 2)
    ∧ ((gospaStep 10 1 2 none [] [] (initSL 1 1)).1.distance_pow = 0
      ∧ (gospaStep 10 1 2 none [] [] (initSL 1 1)).1.localisation_pow = 0
      ∧ (gospaStep 10 1 2 none [] [] (initSL 1 1)).1.missed = 0
      ∧ (gospaStep 10 1 2 none [] [] (initSL 1 1)).1.falseC = 0
      ∧ (gospaStep 10 1 2 none [] [] (initSL 1 1)).1.switching_pow = 0) :=
  ⟨(gospa_empty_sets [1, 2] [] 10 2 1 none (initSL 1 1)).1 rfl,
   (gospa_empty_sets [] [] 10 2 1 none (initSL 1 1)).2.2 rfl rfl⟩

/-- Claim C7: The public `missed` and `false` fields of the GOSPA metric
value are the already-scaled cardinality penalties: unmatched count times
`dummy_cost = c^p / alpha` — not the raw unmatched counts (which are
`|truths| - |kept|` and `|tracks| - |kept|` respectively). -/
theorem gospa_fields_scaled (tracks truths : List ℚ) (c alpha : ℚ) (p : ℕ)
    (sp : Option ℚ) (sl : SLState) :
    (gospaStep c p alpha sp tracks truths sl).1.missed
      = ((gospaStep c p alpha sp tracks truths sl).1.num_missed : ℚ)
          * (c ^ p / alpha)
    ∧ (gospaStep c p alpha sp tracks truths sl).1.falseC
      = ((gospaStep c p alpha sp tracks truths sl).1.num_false : ℚ)
          * (c ^ p / alpha)
    ∧ (gospaStep c p alpha sp tracks truths sl).1.num_missed
      = truths.length - (gospaKept tracks truths c p).length
    ∧ (gospaStep c p alpha sp tracks truths sl).1.num_false
      = tracks.length - (gospaKept tracks truths c p).length := by
  cases sp <;> simp [gospaStep]

theorem sorted_le_getLastD :
    ∀ (rest : List ℕ) (t : ℕ), List.Sorted (· ≤ ·) (t :: rest) →
      ∀ u ∈ t :: rest, u ≤ rest.getLastD t := by
  intro rest
  induction rest with
  | nil =>
    intro t h u hu
    rcases List.mem_cons.1 hu with rfl | hu'
    · exact le_refl u
    · simp at hu'
  | cons b bs ih =>
    intro t h u hu
    rw [List.getLastD_cons]
    obtain ⟨hall, hrest⟩ := List.sorted_cons.1 h
    rcases List.mem_cons.1 hu with rfl | hu'
    · calc u ≤ b := hall b (List.mem_cons_self _ _)
        _ ≤ bs.getLastD b := ih b hrest b (List.mem_cons_self _ _)
    · exact ih b hrest u hu'

/-- Claim C9: A run with exactly one (distinct) timestep makes the metric
driver return the bare structured metric value carrying that timestep's
timestamp; a run with more than one timestep returns the time-ordered
sequence wrapped with the title and the start/end time range, the start
and end timestamps bounding every timestep of the run. -/
theorem metric_driver_spec {α : Type} (title : String) (timestamps : List ℕ)
    (compute : ℕ → α) :
    (∀ t, timestamps.dedup.insertionSort (· ≤ ·) = [t] →
        metricDriver title timestamps compute
          = some (MetricOutput.single (compute t) t))
    ∧ (∀ t rest, timestamps.dedup.insertionSort (· ≤ ·) = t :: rest →
        rest ≠ [] →
        metricDriver title timestamps compute
          = some (MetricOutput.ranged title
              ((t :: rest).map fun u => (compute u, u)) t (rest.getLastD t))
        ∧ List.Sorted (· ≤ ·) (t :: rest)
        ∧ (∀ u ∈ t :: rest, t ≤ u ∧ u ≤ rest.getLastD t)) := by
  constructor
  · intro t h
    rw [metricDriver, h]
  · intro t rest h hne
    have hsorted : List.Sorted (· ≤ ·) (t :: rest) := by
      rw [← h]
      exact List.sorted_insertionSort _ _
    cases rest with
    | nil => exact absurd rfl hne
    | cons b bs =>
      refine ⟨by rw [metricDriver, h], hsorted, ?_⟩
      intro u hu
      obtain ⟨hall, -⟩ := List.sorted_cons.1 hsorted
      constructor
      · rcases List.mem_cons.1 hu with rfl | hu'
        · exact le_refl u
        · exact hall u hu'
      · exact sorted_le_getLastD (b :: bs) t hsorted u hu

theorem metric_driver_spec_witness :
    metricDriver "GOSPA Metrics" [5] (fun t => t)
      = some (MetricOutput.single 5 5)
    ∧ (metricDriver "GOSPA Metrics" [7, 3] (fun t => t)
        = some (MetricOutput.ranged "GOSPA Metrics" [(3, 3), (7, 7)] 3 7)
      ∧ List.Sorted (· ≤ ·) [3, 7]
      ∧ (∀ u ∈ [3, 7], 3 ≤ u ∧ u ≤ [7].getLastD 3)) :=
  ⟨(metric_driver_spec "GOSPA Metrics" [5] (fun t => t)).1 5 (by decide),
   (metric_driver_spec "GOSPA Metrics" [7, 3] (fun t => t)).2 3 [7]
     (by decide) (by decide)⟩

theorem exMapM_ok {β γ : Type} (f : β → Except String γ) (l : List β)
    (h : ∀ x ∈ l, ∃ y, f x = Except.ok y) :
    ∃ ys, exMapM f l = Except.ok ys := by
  induction l with
  | nil => exact ⟨[], rfl⟩
  | cons x xs ih =>
    obtain ⟨y, hy⟩ := h x (List.mem_cons_self _ _)
    obtain ⟨ys, hys⟩ := ih (fun z hz => h z (List.mem_cons_of_mem _ hz))
    refine ⟨y :: ys, ?_⟩
    rw [exMapM, hy, hys]

theorem exMapM_congr {β γ : Type} {f g : β → Except String γ} {l : List β}
    (h : ∀ x ∈ l, f x = g x) : exMapM f l = exMapM g l := by
  induction l with
  | nil => rfl
  | cons x xs ih =>
    rw [exMapM, exMapM, h x (List.mem_cons_self _ _),
      ih (fun z hz => h z (List.mem_cons_of_mem _ hz))]

theorem mfaUpdateHyp_ok (wsum : ℚ) (dtuple : List MFADetection)
    (comp : MFAComponent) (h : MFAHyp)
    (hm : ∀ m, h.measurement = some m → m ∈ dtuple) :
    ∃ h', mfaUpdateHyp wsum dtuple comp h = Except.ok h' := by
  rcases hmeas : h.measurement with - | m
  · refine ⟨{ h with
        weight := comp.weight * h.weight / wsum,
        tag := comp.tag ++ [0] }, ?_⟩
    simp [mfaUpdateHyp, hmeas]
  · have hmem : m ∈ dtuple := hm m hmeas
    rcases hfind : dtuple.findIdx? (fun d => d = m) with - | idx
    · exfalso
      have := List.findIdx?_eq_none_iff.1 hfind m hmem
      simp at this
    · refine ⟨{ h with
          weight := comp.weight * h.weight / wsum,
          tag := comp.tag ++ [idx + 1] }, ?_⟩
      simp [mfaUpdateHyp, hmeas, hfind]

/-- Claim C10: When the detection batch handed to
`MFAHypothesiser.hypothesise` contains more than one distinct timestamp,
the computation records a non-fatal warning (the returned flag, true
exactly for a heterogeneous batch) and proceeds on the batch as given with
no exception (the call returns `Except.ok` for any timestamps, provided
the measurements come from `detections_tuple`); the hypothesis list is
unchanged under any retiming of the batch that leaves the underlying
hypothesiser's output unchanged — i.e. there is no automatic
re-grouping. -/
theorem mfa_timestamp_warning
    (underlying : MFAComponent → List MFADetection → List MFAHyp)
    (components : List MFAComponent)
    (detections detections_tuple : List MFADetection)
    (hmeas : ∀ comp ∈ components, ∀ h ∈ underlying comp detections, ∀ m,
        h.measurement = some m → m ∈ detections_tuple) :
    ∃ hyps : List MFAHyp,
      mfaHypothesise underlying components detections detections_tuple
        = Except.ok
            (decide (1 < (detections.map (·.timestamp)).dedup.length), hyps)
      ∧ ∀ detections₂ : List MFADetection,
          (∀ comp ∈ components,
            underlying comp detections₂ = underlying comp detections) →
          mfaHypothesise underlying components detections₂ detections_tuple
            = Except.ok
                (decide (1 < (detections₂.map (·.timestamp)).dedup.length),
                 hyps) := by
  have hok : ∃ hypss, exMapM (fun comp =>
      exMapM (mfaUpdateHyp ((components.map (·.weight)).sum)
          detections_tuple comp)
        (underlying comp detections)) components = Except.ok hypss := by
    apply exMapM_ok
    intro comp hcomp
    apply exMapM_ok
    intro h hh
    exact mfaUpdateHyp_ok _ _ _ _ (hmeas comp hcomp h hh)
  obtain ⟨hypss, hhypss⟩ := hok
  refine ⟨hypss.flatten, ?_, ?_⟩
  · rw [mfaHypothesise, hhypss]
  · intro detections₂ hsame
    have hsame' : exMapM (fun comp =>
        exMapM (mfaUpdateHyp ((components.map (·.weight)).sum)
            detections_tuple comp)
          (underlying comp detections₂)) components
        = Except.ok hypss := by
      rw [exMapM_congr (fun comp hcomp => by rw [hsame comp hcomp]), hhypss]
    rw [mfaHypothesise, hsame']

theorem mfa_timestamp_warning_witness :
    ∃ hyps : List MFAHyp,
      mfaHypothesise
          (fun _comp dets => dets.map
            (fun d => { measurement := some d, weight := 1, tag := [] }))
          [{ tag := [], weight := 1 }]
          [{ timestamp := 0, payload := 0 }, { timestamp := 1, payload := 1 }]
          [{ timestamp := 0, payload := 0 }, { timestamp := 1, payload := 1 }]
        = Except.ok
            (decide (1 < (([{ timestamp := 0, payload := 0 },
                { timestamp := 1, payload := 1 }] : List MFADetection).map
                (·.timestamp)).dedup.length), hyps)
      ∧ ∀ detections₂ : List MFADetection,
          (∀ comp ∈ ([{ tag := [], weight := 1 }] : List MFAComponent),
            detections₂.map
                (fun d => ({ measurement := some d, weight := 1, tag := [] } : MFAHyp))
              = ([{ timestamp := 0, payload := 0 },
                  { timestamp := 1, payload := 1 }] : List MFADetection).map
                  (fun d => { measurement := some d, weight := 1, tag := [] })) →
          mfaHypothesise
              (fun _comp dets => dets.map
                (fun d => { measurement := some d, weight := 1, tag := [] }))
              [{ tag := [], weight := 1 }] detections₂
              [{ timestamp := 0, payload := 0 }, { timestamp := 1, payload := 1 }]
            = Except.ok
                (decide (1 < (detections₂.map (·.timestamp)).dedup.length),
                 hyps) :=
  mfa_timestamp_warning
    (fun _comp dets => dets.map
      (fun d => { measurement := some d, weight := 1, tag := [] }))
    [{ tag := [], weight := 1 }]
    [{ timestamp := 0, payload := 0 }, { timestamp := 1, payload := 1 }]
    [{ timestamp := 0, payload := 0 }, { timestamp := 1, payload := 1 }]
    (by decide)

/-- Claim C4: First-ever association for a truth identity contributes weight 0
(even a real track id); once prior history exists with `established = true`,
an unchanged assignment contributes 0, a real/None transition (either
direction) 1/2, and a change between two different real ids 1; truth
identities absent from a call keep their history untouched.  The concrete
association sequence of the spec (loss_factor = 1, p = 1) yields the
per-step aggregate weights `[0, 0, 0.5, 0.5, 2, 0, 2.5]`. -/
theorem switching_loss_behaviour :
    runWeights (initSL 1 1) switchScenario = [0, 0, 1/2, 1/2, 2, 0, 5/2]
    ∧ (∀ (s : SLState) (tid : ℕ) (v : Option ℕ),
        lookupHist s.histories tid = none → (addAssociations s [(tid, v)]).2 = 0)
    ∧ (∀ (s : SLState) (tid : ℕ) (v : Option ℕ) (h : TruthHistory),
        lookupHist s.histories tid = some h → h.established = true →
        (addAssociations s [(tid, v)]).2 =
          if h.last_id = v then 0
          else if h.last_id.isSome && v.isSome then 1 else 1/2)
    ∧ (∀ (s : SLState) (asg : List (ℕ × Option ℕ)) (tid : ℕ),
        (∀ pr ∈ asg, pr.1 ≠ tid) →
        lookupHist ((addAssociations s asg).1).histories tid
          = lookupHist s.histories tid) := by
  refine ⟨?_, ?_, ?_, ?_⟩
  · norm_num [runWeights, switchScenario, addAssociations, initSL, lookupHist,
      updateHist, stepHist, stepWeight, List.find?]
    norm_num [Option.some_ne_none]
    exact fun h => Option.noConfusion h
  · intro s tid v hnone
    simp [addAssociations, hnone, stepWeight]
  · intro s tid v h hsome hest
    simp [addAssociations, hsome, stepWeight, hest]
  · intro s asg tid habs
    simpa [addAssociations] using addAssoc_foldl_untouched asg s.histories 0 tid habs

theorem switching_loss_behaviour_witness :
    (addAssociations (initSL 1 1) [(7, some 3)]).2 = 0
    ∧ (addAssociations
        (addAssociations (initSL 1 1) [(0, some 1)]).1 [(0, some 2)]).2 = 1
    ∧ lookupHist ((addAssociations (initSL 1 1) [(0, some 1)]).1).histories 9
        = lookupHist (initSL 1 1).histories 9 := by
  refine ⟨switching_loss_behaviour.2.1 (initSL 1 1) 7 (some 3) (by decide), ?_,
    switching_loss_behaviour.2.2.2 (initSL 1 1) [(0, some 1)] 9 (by decide)⟩
  have h := switching_loss_behaviour.2.2.1
    (addAssociations (initSL 1 1) [(0, some 1)]).1 0 (some 2)
    { last_id := some 1, established := true } (by decide) (by decide)
  simpa using h

/-- Claim C8: `loss()` on a tracker on which `add_associations` has never
been called fails with the no-associations-yet error; after any
`add_associations` call it succeeds, and its rational payload
`loss_factor ^ p * weight_sum` is the `p`-th power of the specified value
`loss_factor * weight_sum ** (1/p)` (third conjunct, at the real level). -/
theorem switching_loss_loss :
    (∀ (lf : ℚ) (p : ℕ), loss_pow (initSL lf p)
        = Except.error "Cannot compute loss when no associations have been added")
    ∧ (∀ (s : SLState) (asg : List (ℕ × Option ℕ)),
        loss_pow (addAssociations s asg).1
          = Except.ok (s.loss_factor ^ s.p * (addAssociations s asg).2))
    ∧ (∀ (lf w : ℚ) (p : ℕ), 0 ≤ lf → 0 ≤ w → 1 ≤ p →
        ((lf ^ p * w : ℚ) : ℝ) ^ ((p : ℝ)⁻¹)
          = (lf : ℝ) * (w : ℝ) ^ ((p : ℝ)⁻¹)) := by
  refine ⟨fun lf p => rfl, ?_, ?_⟩
  · intro s asg
    simp [addAssociations, loss_pow]
  · intro lf w p hlf hw hp
    have hlf' : (0 : ℝ) ≤ (lf : ℝ) := by exact_mod_cast hlf
    have hw' : (0 : ℝ) ≤ (w : ℝ) := by exact_mod_cast hw
    have hp0 : (p : ℝ) ≠ 0 := by
      have : (0 : ℕ) < p := lt_of_lt_of_le one_pos hp
      exact_mod_cast this.ne'
    push_cast
    rw [Real.mul_rpow (by positivity) hw']
    congr 1
    rw [← Real.rpow_natCast (lf : ℝ) p, ← Real.rpow_mul hlf',
      mul_inv_cancel₀ hp0, Real.rpow_one]

theorem switching_loss_loss_witness :
    loss_pow (initSL 2 1)
        = Except.error "Cannot compute loss when no associations have been added"
    ∧ loss_pow (addAssociations (initSL 2 1) [(0, some 1)]).1
        = Except.ok ((2 : ℚ) ^ 1 * (addAssociations (initSL 2 1) [(0, some 1)]).2)
    ∧ (((2 : ℚ) ^ 1 * (1/2 : ℚ) : ℚ) : ℝ) ^ (((1 : ℕ) : ℝ))⁻¹
        = ((2 : ℚ) : ℝ) * (((1:ℚ)/2 : ℚ) : ℝ) ^ (((1 : ℕ) : ℝ))⁻¹ :=
  ⟨switching_loss_loss.1 2 1,
   switching_loss_loss.2.1 (initSL 2 1) [(0, some 1)],
   switching_loss_loss.2.2 2 (1/2) 1 (by norm_num) (by norm_num) le_rfl⟩

end StoneSoup
